import Mathlib

/-!
Verification of the MQTT hub's message dispatch core.

This file gives a shallow embedding of the two source files of the
repository — `src/mqtt/MessageQueue.js` (the deduplicating publish queue)
and `src/app.js` (the `MQTTHub` lifecycle) — and proves properties of the
embedded definitions.

Modelling conventions:
* JavaScript objects shared by reference (`this.queue` holds references to
  the very `Message` objects stored in `this.messages`) are modelled by
  giving every `Message` a numeric identity `mid`; "mutating the object in
  place" becomes "replacing every holder whose `mid` matches".
* The JS `Map` is modelled by an association list with `Map`-style
  operations (`mfind`/`mset`/`mdelete`).
* `undefined` option fields are modelled by `Option` (`none`).
* The MQTT client (the Publisher collaborator) is a parameter: its
  `isRegistered()` answer is a `Bool` argument held fixed over one
  synchronous run, and `publish` is a function from the wire-visible
  fields of a message to a success `Bool`.  Publish attempts are recorded
  as an event list; a `false` outcome is the caught-and-logged failure.
* The unbounded `while` loop of `process` is given `queue.length` as fuel;
  each iteration strictly shortens the queue, and the lemma
  `processLoop_fuel_eq` shows any fuel at least `queue.length` computes
  the same result, so the fueled function coincides with the JS loop.
-/

/-- Modelled from the spec: the `Message` value object required from
`src/mqtt/Message.js`, which is not under `src/`.  Per the spec it carries
`topic` (the dedup key), `payload`, `qos` and `retain`; the constructor
stores the values it is given, an absent argument staying absent (`none`).
The extra field `mid` is the object identity used to model JS reference
sharing and is not observable on the wire. -/
structure Message where
  mid : Nat
  mqttTopic : String
  mqttMessage : String
  qos : Option Nat
  retain : Option Bool
deriving DecidableEq, Repr

/-- The wire-visible fields of a message (everything except the
object-identity artifact `mid`). -/
def Message.obs (m : Message) : String × String × Option Nat × Option Bool :=
  (m.mqttTopic, m.mqttMessage, m.qos, m.retain)

/-- The `opt` argument of `MessageQueue.add`: a JS options object whose
`qos` and `retain` fields may each be `undefined`. -/
structure MsgOpt where
  qos : Option Nat := none
  retain : Option Bool := none
deriving DecidableEq, Repr

/-- The publisher capability: `mqttClient.publish` seen as a function of
the wire-visible message fields (topic, payload, qos, retain), returning
whether the publish attempt succeeded. -/
abbrev PubFn := String → String → Option Nat → Option Bool → Bool

/-- The type of `this.messages`, the JS `Map` from topic to `Message`. -/
abbrev TopicMap := List (String × Message)

/-- JS `Map.get`: the value bound to `t`, if any. -/
def mfind : TopicMap → String → Option Message
  | [], _ => none
  | (k, v) :: rest, t => if k = t then some v else mfind rest t

/-- JS `Map.has`. -/
def mhas (m : TopicMap) (t : String) : Bool :=
  (mfind m t).isSome

/-- JS `Map.set`: replace the binding of `t` if present, else append it. -/
def mset : TopicMap → String → Message → TopicMap
  | [], t, v => [(t, v)]
  | (k, w) :: rest, t, v => if k = t then (t, v) :: rest else (k, w) :: mset rest t v

/-- JS `Map.delete`: drop every binding of `t` (bindings are unique in a JS
`Map`, so this is its behaviour). -/
def mdelete : TopicMap → String → TopicMap
  | [], _ => []
  | (k, w) :: rest, t => if k = t then mdelete rest t else (k, w) :: mdelete rest t

/-- The state of `class MessageQueue`: `queue` is the pending-order array,
`messages` the live topic map, `running` the pause flag, `processing` the
`_processing` reentrancy guard.  `nextId` is the freshness source for
`Message` object identities (a modelling artifact of `new Message(...)`). -/
structure MessageQueue where
  queue : List Message
  messages : TopicMap
  running : Bool
  processing : Bool
  nextId : Nat
deriving DecidableEq, Repr

/-- The constructor: empty queue and map, `running = true`; `_processing`
is initially undefined, i.e. falsy. -/
def MessageQueue.init : MessageQueue :=
  { queue := [], messages := [], running := true, processing := false, nextId := 0 }

/-- Body of `add` inside the `isRegistered() && topic` guard, without the
drain trigger: if the topic has no live message, construct one and both
map and push it; otherwise mutate the live message's payload/qos/retain in
place (`message.mqttMessage = payload; message.qos = opt.qos;
message.retain = opt.retain`), the mutation being visible through every
reference to the object (same `mid`). -/
def MessageQueue.addCore (topic payload : String) (opt : Option MsgOpt)
    (s : MessageQueue) : MessageQueue :=
  let o := opt.getD {}
  match mfind s.messages topic with
  | none =>
    let m : Message :=
      { mid := s.nextId, mqttTopic := topic, mqttMessage := payload
        qos := o.qos, retain := o.retain }
    { s with messages := mset s.messages topic m
             queue := s.queue ++ [m]
             nextId := s.nextId + 1 }
  | some m =>
    let m' : Message := { m with mqttMessage := payload, qos := o.qos, retain := o.retain }
    { s with messages := mset s.messages topic m'
             queue := s.queue.map (fun x => if x.mid = m.mid then m' else x) }

/-- Source `add(topic, payload, opt, false)`: enqueue without triggering a drain
(the state part of `add`; a no-op unless the client is registered and the
topic is non-empty). -/
def MessageQueue.addMessage (registered : Bool) (topic payload : String)
    (opt : Option MsgOpt) (s : MessageQueue) : MessageQueue :=
  if registered ∧ topic ≠ "" then MessageQueue.addCore topic payload opt s else s

/-- Source `get(topic)`. -/
def MessageQueue.get (s : MessageQueue) (topic : String) : Option Message :=
  mfind s.messages topic

/-- Source `remove(topic)`: `this.messages.delete(topic)` — the live set only,
the pending-order array is untouched. -/
def MessageQueue.remove (topic : String) (s : MessageQueue) : MessageQueue :=
  { s with messages := mdelete s.messages topic }

/-- Source `_getNextMessage()`: shift entries off the queue until one is found
whose topic is still in the live map (or the queue is exhausted); returns
the found message and the remaining queue. -/
def MessageQueue.getNextMessage : List Message → TopicMap → Option Message × List Message
  | [], _ => (none, [])
  | m :: rest, msgs =>
    if mhas msgs m.mqttTopic then (some m, rest)
    else MessageQueue.getNextMessage rest msgs

/-- Source `send(message)`: `mqttClient.publish(message)` with its failure caught
and logged; the returned `Bool` is the outcome of the attempt. -/
def MessageQueue.send (pub : PubFn) (m : Message) : Bool :=
  pub m.mqttTopic m.mqttMessage m.qos m.retain

/-- Source `next()`: dequeue via `_getNextMessage`; if a message was found,
delete its topic from the live map and then attempt to send it (the
attempt's failure is caught, so it does not alter the state).  The second
component records the publish attempt, if any. -/
def MessageQueue.next (pub : PubFn) (s : MessageQueue) :
    MessageQueue × Option (Message × Bool) :=
  match MessageQueue.getNextMessage s.queue s.messages with
  | (none, q') => ({ s with queue := q' }, none)
  | (some m, q') =>
    ({ s with queue := q', messages := mdelete s.messages m.mqttTopic },
     some (m, MessageQueue.send pub m))

/-- Embedding of the `while (this.running && this.mqttClient.isRegistered() &&
this.queue.length)` loop of `process()`, with fuel (each iteration
strictly shortens the queue, and `processLoop_fuel_eq` below shows the
result is fuel-independent once the fuel covers the queue length, so this
is the JS unbounded loop).  `DELAY` is `0` in the source, so the
inter-publish delay branch is dead code.  The registration answer is held
fixed across the synchronous run. -/
def MessageQueue.processLoop (pub : PubFn) (registered : Bool) :
    Nat → MessageQueue → MessageQueue × List (Message × Bool)
  | 0, s => (s, [])
  | fuel + 1, s =>
    if s.running ∧ registered ∧ s.queue ≠ [] then
      let p := MessageQueue.next pub s
      let r := MessageQueue.processLoop pub registered fuel p.1
      (r.1, p.2.toList ++ r.2)
    else (s, [])

/-- Source `process()`: return immediately if `_processing` is set; otherwise set
it, run the drain loop (every internal failure being caught), and clear
it unconditionally before returning. -/
def MessageQueue.process (pub : PubFn) (registered : Bool) (s : MessageQueue) :
    MessageQueue × List (Message × Bool) :=
  if s.processing then (s, [])
  else
    let r := MessageQueue.processLoop pub registered s.queue.length
      { s with processing := true }
    ({ r.1 with processing := false }, r.2)

/-- Source `add(topic, payload, opt, process)`: the full method — enqueue under
the guard, then trigger `process()` unless suppressed. -/
def MessageQueue.add (pub : PubFn) (registered : Bool) (topic payload : String)
    (opt : Option MsgOpt) (proc : Bool) (s : MessageQueue) :
    MessageQueue × List (Message × Bool) :=
  if registered ∧ topic ≠ "" then
    let s' := MessageQueue.addCore topic payload opt s
    if proc then MessageQueue.process pub registered s' else (s', [])
  else (s, [])

/-- Source `start()`: set `running` and attempt a drain. -/
def MessageQueue.start (pub : PubFn) (registered : Bool) (s : MessageQueue) :
    MessageQueue × List (Message × Bool) :=
  MessageQueue.process pub registered { s with running := true }

/-- Source `stop()`: clear `running` without touching queued state. -/
def MessageQueue.stop (s : MessageQueue) : MessageQueue :=
  { s with running := false }

/-- Source `clear()`: empty both the pending-order array and the live map. -/
def MessageQueue.clear (s : MessageQueue) : MessageQueue :=
  { s with queue := [], messages := [] }

/-- Source `destroy()`: `stop` then `clear`. -/
def MessageQueue.destroy (s : MessageQueue) : MessageQueue :=
  MessageQueue.clear (MessageQueue.stop s)

/-- The handler the constructor subscribes to the client's
`onUnRegistered` event: `() => this.clear()`. -/
def MessageQueue.onUnRegisteredHandler (s : MessageQueue) : MessageQueue :=
  MessageQueue.clear s

/-- The always-succeeding publisher. -/
def pubTrue : PubFn := fun _ _ _ _ => true

/-!
## The `MQTTHub` lifecycle (`src/app.js`)

`start()`/`stop()` are sequences of calls on collaborators (the MQTT
client, command handler, broadcasters, protocol dispatchers, message
queue).  They are embedded as the trace of those calls, in source order;
an event names the collaborator method invoked.  `this.mqttClient` exists
whenever `start`/`stop` can run (it is created in `onInit`), so the
`this.mqttClient &&` part of the birth/last-will guard is true.
-/

/-- Constant `BIRTH_TOPIC` (braces of the template written as `\x7b`/`\x7d`). -/
def BIRTH_TOPIC : String := "\x7bdeviceId\x7d/hub/status"

/-- Constant `BIRTH_MESSAGE`. -/
def BIRTH_MESSAGE : String := "online"

/-- Constant `WILL_TOPIC`. -/
def WILL_TOPIC : String := "\x7bdeviceId\x7d/hub/status"

/-- Constant `WILL_MESSAGE`. -/
def WILL_MESSAGE : String := "offline"

/-- Replace the first occurrence of `pat` (non-empty) in the character
list `s` by `repl` — JS `String.prototype.replace` with a string
pattern. -/
def replaceFirst (pat repl : List Char) : List Char → List Char
  | [] => []
  | c :: rest =>
    if pat ≠ [] ∧ pat.isPrefixOf (c :: rest) then repl ++ (c :: rest).drop pat.length
    else c :: replaceFirst pat repl rest

/-- JS `s.replace(pat, repl)` on strings (first occurrence only). -/
def jsReplace (s pat repl : String) : String :=
  ⟨replaceFirst pat.data repl.data s.data⟩

/-- The hub's persisted settings, as far as the lifecycle reads them:
`settings.deviceId` and `settings.protocol`, each possibly undefined. -/
structure HubSettings where
  deviceId : Option String := none
  protocol : Option String := none
deriving DecidableEq, Repr

/-- The `MQTTHub` state the lifecycle methods read: the settings object
and `this.protocol`, the currently started communication protocol
(undefined before the first `start`). -/
structure MQTTHub where
  settings : HubSettings
  protocol : Option String := none
deriving DecidableEq, Repr

/-- One collaborator call made by the lifecycle methods. -/
inductive HubEvent where
  | connect
  | connectFail
  | publishDirect (topic payload : String) (qos : Nat) (retain : Bool)
  | startCommands
  | stopCommands
  | startBroadcasters
  | stopBroadcasters
  | startProtocol (p : String)
  | stopProtocol
  | disconnect
  | queueStart
  | queueStop
  | queueClear
deriving DecidableEq, Repr

/-- Source `_sendBirthMessage()`: if the topic/message constants are
non-empty, substitute the deviceId into `BIRTH_TOPIC` and publish
`new Message(topic, BIRTH_MESSAGE, 1, true)` directly through
`this.mqttClient`. -/
def MQTTHub.sendBirthMessage (settings : HubSettings) : List HubEvent :=
  if BIRTH_TOPIC ≠ "" ∧ BIRTH_MESSAGE ≠ "" then
    [HubEvent.publishDirect
      (jsReplace BIRTH_TOPIC "\x7bdeviceId\x7d" (settings.deviceId.getD "Homey"))
      BIRTH_MESSAGE 1 true]
  else []

/-- Source `_sendLastWillMessage()`: as the birth message, with `WILL_TOPIC` and
`WILL_MESSAGE`. -/
def MQTTHub.sendLastWillMessage (settings : HubSettings) : List HubEvent :=
  if WILL_TOPIC ≠ "" ∧ WILL_MESSAGE ≠ "" then
    [HubEvent.publishDirect
      (jsReplace WILL_TOPIC "\x7bdeviceId\x7d" (settings.deviceId.getD "Homey"))
      WILL_MESSAGE 1 true]
  else []

/-- Source `_stopCommunicationProtocol(protocol)`: destroys the dispatchers only
when the (defaulted) protocol argument is truthy. -/
def MQTTHub.stopCommunicationProtocol (p : Option String) : List HubEvent :=
  if p.isSome then [HubEvent.stopProtocol] else []

/-- Source `start()`: connect the client; on success send the birth message, then
`_startCommands()`, then `_startBroadcasters()`, then — if the configured
protocol differs from the running one — stop the old and start the new
communication protocol.  On connect failure the exception is caught and
nothing further runs.  No method of `messageQueue` is invoked. -/
def MQTTHub.start (hub : MQTTHub) (connectOk : Bool) : List HubEvent :=
  if connectOk then
    [HubEvent.connect] ++ MQTTHub.sendBirthMessage hub.settings
      ++ [HubEvent.startCommands, HubEvent.startBroadcasters]
      ++ (let protocol := hub.settings.protocol.getD "homie3"
          if hub.protocol ≠ some protocol then
            MQTTHub.stopCommunicationProtocol hub.protocol
              ++ [HubEvent.startProtocol protocol]
          else [])
  else [HubEvent.connectFail]

/-- Source `stop()`: send the last-will message, then `mqttClient.disconnect()`,
then `_stopCommands()`, `_stopBroadcasters()`,
`_stopCommunicationProtocol()`.  No method of `messageQueue` is
invoked. -/
def MQTTHub.stop (hub : MQTTHub) : List HubEvent :=
  MQTTHub.sendLastWillMessage hub.settings
    ++ [HubEvent.disconnect, HubEvent.stopCommands, HubEvent.stopBroadcasters]
    ++ MQTTHub.stopCommunicationProtocol hub.protocol

/-- Wrapper: `_sendBirthMessage` as it relates to the hub's `MessageQueue`: the
method never mentions `this.messageQueue`, so the queue state passes
through unchanged whatever it is. -/
def MQTTHub.sendBirthWithQueue (settings : HubSettings) (q : MessageQueue) :
    MessageQueue × List HubEvent :=
  (q, MQTTHub.sendBirthMessage settings)

/-- Wrapper: `_sendLastWillMessage` likewise never mentions `this.messageQueue`. -/
def MQTTHub.sendLastWillWithQueue (settings : HubSettings) (q : MessageQueue) :
    MessageQueue × List HubEvent :=
  (q, MQTTHub.sendLastWillMessage settings)

/-!
## Lemmas about the topic map
-/

theorem mfind_mset_self (m : TopicMap) (t : String) (v : Message) :
    mfind (mset m t v) t = some v := by
  induction m with
  | nil => simp [mset, mfind]
  | cons p rest ih =>
    obtain ⟨k, w⟩ := p
    by_cases h : k = t
    · simp [mset, h, mfind]
    · simp [mset, h, mfind, ih]

theorem mfind_mset_ne (m : TopicMap) (t u : String) (v : Message) (h : u ≠ t) :
    mfind (mset m t v) u = mfind m u := by
  induction m with
  | nil => simp [mset, mfind, Ne.symm h]
  | cons p rest ih =>
    obtain ⟨k, w⟩ := p
    by_cases hk : k = t
    · subst hk
      simp [mset, mfind, Ne.symm h]
    · by_cases hu : k = u
      · subst hu
        simp [mset, hk, mfind]
      · simp [mset, hk, mfind, hu, ih]

theorem mset_of_mfind_eq (m : TopicMap) (t : String) (v : Message)
    (h : mfind m t = some v) : mset m t v = m := by
  induction m with
  | nil => simp [mfind] at h
  | cons p rest ih =>
    obtain ⟨k, w⟩ := p
    by_cases hk : k = t
    · subst hk
      simp [mfind] at h
      simp [mset, h]
    · simp [mfind, hk] at h
      simp [mset, hk, ih h]

theorem mset_mset_self (m : TopicMap) (t : String) (v w : Message) :
    mset (mset m t v) t w = mset m t w := by
  induction m with
  | nil => simp [mset]
  | cons p rest ih =>
    obtain ⟨k, x⟩ := p
    by_cases hk : k = t
    · simp [mset, hk]
    · simp [mset, hk, ih]

theorem mfind_mdelete_self (m : TopicMap) (t : String) :
    mfind (mdelete m t) t = none := by
  induction m with
  | nil => simp [mdelete, mfind]
  | cons p rest ih =>
    obtain ⟨k, w⟩ := p
    by_cases hk : k = t
    · simp [mdelete, hk, ih]
    · simp [mdelete, hk, mfind, ih]

theorem mfind_mdelete_ne (m : TopicMap) (t u : String) (h : t ≠ u) :
    mfind (mdelete m u) t = mfind m t := by
  induction m with
  | nil => simp [mdelete]
  | cons p rest ih =>
    obtain ⟨k, w⟩ := p
    by_cases hk : k = u
    · subst hk
      simp [mdelete, mfind, Ne.symm h, ih]
    · by_cases ht : k = t
      · subst ht
        simp [mdelete, hk, mfind]
      · simp [mdelete, hk, mfind, ht, ih]

theorem mdelete_of_mfind_none (m : TopicMap) (t : String)
    (h : mfind m t = none) : mdelete m t = m := by
  induction m with
  | nil => simp [mdelete]
  | cons p rest ih =>
    obtain ⟨k, w⟩ := p
    by_cases hk : k = t
    · simp [mfind, hk] at h
    · simp [mfind, hk] at h
      simp [mdelete, hk, ih h]

theorem mhas_mdelete_imp (m : TopicMap) (t u : String)
    (h : mhas (mdelete m u) t = true) : mhas m t = true := by
  by_cases htu : t = u
  · subst htu
    rw [mhas, mfind_mdelete_self] at h
    simp at h
  · rw [mhas, mfind_mdelete_ne m t u htu] at h
    exact h

theorem mhas_iff_mem_keys (m : TopicMap) (t : String) :
    mhas m t = true ↔ t ∈ m.map Prod.fst := by
  induction m with
  | nil => simp [mhas, mfind]
  | cons p rest ih =>
    obtain ⟨k, w⟩ := p
    by_cases hk : k = t
    · subst hk
      simp [mhas, mfind]
    · simp [mhas, mfind, hk, Ne.symm hk] at ih ⊢
      exact ih

theorem keys_mset_of_mhas (m : TopicMap) (t : String) (v : Message)
    (h : mhas m t = true) : (mset m t v).map Prod.fst = m.map Prod.fst := by
  induction m with
  | nil => simp [mhas, mfind] at h
  | cons p rest ih =>
    obtain ⟨k, w⟩ := p
    by_cases hk : k = t
    · simp [mset, hk]
    · simp [mhas, mfind, hk] at h
      simp [mset, hk, ih h]

theorem keys_mset_of_not_mhas (m : TopicMap) (t : String) (v : Message)
    (h : mhas m t = false) : (mset m t v).map Prod.fst = m.map Prod.fst ++ [t] := by
  induction m with
  | nil => simp [mset]
  | cons p rest ih =>
    obtain ⟨k, w⟩ := p
    by_cases hk : k = t
    · subst hk
      simp [mhas, mfind] at h
    · simp [mhas, mfind, hk] at h
      simp [mset, hk, ih (by simp [mhas, h])]

theorem keys_mdelete (m : TopicMap) (t : String) :
    (mdelete m t).map Prod.fst = (m.map Prod.fst).filter (fun k => k ≠ t) := by
  induction m with
  | nil => simp [mdelete]
  | cons p rest ih =>
    obtain ⟨k, w⟩ := p
    by_cases hk : k = t
    · simp [mdelete, hk, List.filter, ih]
    · simp [mdelete, hk, List.filter, ih]

theorem nodup_keys_mset (m : TopicMap) (t : String) (v : Message)
    (h : (m.map Prod.fst).Nodup) : ((mset m t v).map Prod.fst).Nodup := by
  by_cases hm : mhas m t = true
  · rw [keys_mset_of_mhas m t v hm]; exact h
  · rw [keys_mset_of_not_mhas m t v (by simpa using hm)]
    rw [List.nodup_append]
    refine ⟨h, List.nodup_singleton t, ?_⟩
    intro x hx
    simp only [List.mem_singleton]
    intro hxt
    subst hxt
    exact hm ((mhas_iff_mem_keys m x).mpr hx)

theorem nodup_keys_mdelete (m : TopicMap) (t : String)
    (h : (m.map Prod.fst).Nodup) : ((mdelete m t).map Prod.fst).Nodup := by
  rw [keys_mdelete]
  exact List.Nodup.filter _ h

theorem mdelete_length_succ (m : TopicMap) (t : String) (v : Message)
    (hn : (m.map Prod.fst).Nodup) (h : mfind m t = some v) :
    (mdelete m t).length + 1 = m.length := by
  induction m with
  | nil => simp [mfind] at h
  | cons p rest ih =>
    obtain ⟨k, w⟩ := p
    simp only [List.map_cons, List.nodup_cons] at hn
    by_cases hk : k = t
    · subst hk
      have hrest : mfind rest k = none := by
        cases hf : mfind rest k with
        | none => rfl
        | some x =>
          exfalso
          exact hn.1 ((mhas_iff_mem_keys rest k).mp (by simp [mhas, hf]))
      simp [mdelete, mdelete_of_mfind_none rest k hrest]
    · simp [mfind, hk] at h
      simp [mdelete, hk, ih hn.2 h]

/-!
## Lemmas about dequeuing and the drain loop
-/

theorem gnm_none (q : List Message) (msgs : TopicMap) (q' : List Message)
    (h : MessageQueue.getNextMessage q msgs = (none, q')) :
    q' = [] ∧ ∀ x ∈ q, mhas msgs x.mqttTopic = false := by
  induction q with
  | nil =>
    simp [MessageQueue.getNextMessage] at h
    simp [h]
  | cons m rest ih =>
    by_cases hm : mhas msgs m.mqttTopic = true
    · simp [MessageQueue.getNextMessage, hm] at h
    · rw [MessageQueue.getNextMessage, if_neg (by simp [hm])] at h
      obtain ⟨h1, h2⟩ := ih h
      refine ⟨h1, ?_⟩
      intro x hx
      rcases List.mem_cons.mp hx with rfl | hx
      · simpa using hm
      · exact h2 x hx

theorem gnm_some (q : List Message) (msgs : TopicMap) (m : Message) (q' : List Message)
    (h : MessageQueue.getNextMessage q msgs = (some m, q')) :
    mhas msgs m.mqttTopic = true ∧
    ∃ pre, q = pre ++ m :: q' ∧ ∀ x ∈ pre, mhas msgs x.mqttTopic = false := by
  induction q with
  | nil => simp [MessageQueue.getNextMessage] at h
  | cons c rest ih =>
    by_cases hc : mhas msgs c.mqttTopic = true
    · rw [MessageQueue.getNextMessage, if_pos hc] at h
      obtain ⟨hm, hq⟩ := Prod.mk.injEq .. ▸ h
      injection hm with hm
      subst hm; subst hq
      exact ⟨hc, [], by simp⟩
    · rw [MessageQueue.getNextMessage, if_neg (by simp [hc])] at h
      obtain ⟨h1, pre, h2, h3⟩ := ih h
      refine ⟨h1, c :: pre, by simp [h2], ?_⟩
      intro x hx
      rcases List.mem_cons.mp hx with rfl | hx
      · simpa using hc
      · exact h3 x hx

theorem next_queue_shorter (pub : PubFn) (s : MessageQueue) (h : s.queue ≠ []) :
    (MessageQueue.next pub s).1.queue.length < s.queue.length := by
  rw [MessageQueue.next]
  cases hg : MessageQueue.getNextMessage s.queue s.messages with
  | mk o q' =>
    cases o with
    | none =>
      obtain ⟨h1, _⟩ := gnm_none s.queue s.messages q' hg
      subst h1
      simpa using List.length_pos.mpr h
    | some m =>
      obtain ⟨_, pre, h2, _⟩ := gnm_some s.queue s.messages m q' hg
      simp only
      rw [h2]
      simp
      omega

theorem processLoop_fuel_eq (pub : PubFn) (registered : Bool) :
    ∀ f g s, s.queue.length ≤ f → s.queue.length ≤ g →
    MessageQueue.processLoop pub registered f s = MessageQueue.processLoop pub registered g s := by
  intro f
  induction f with
  | zero =>
    intro g s hf _
    have hq : s.queue = [] := List.length_eq_zero.mp (Nat.le_zero.mp hf)
    cases g with
    | zero => rfl
    | succ g => simp [MessageQueue.processLoop, hq]
  | succ f ih =>
    intro g s hf hg
    cases g with
    | zero =>
      have hq : s.queue = [] := List.length_eq_zero.mp (Nat.le_zero.mp hg)
      simp [MessageQueue.processLoop, hq]
    | succ g =>
      by_cases hc : s.running ∧ registered = true ∧ s.queue ≠ []
      · have hlt := next_queue_shorter pub s hc.2.2
        simp only [MessageQueue.processLoop, if_pos hc]
        rw [ih g (MessageQueue.next pub s).1 (by omega) (by omega)]
      · rw [MessageQueue.processLoop, MessageQueue.processLoop, if_neg hc, if_neg hc]

theorem mem_imp_mhas (m : TopicMap) (pr : String × Message) (h : pr ∈ m) :
    mhas m pr.1 = true := by
  induction m with
  | nil => simp at h
  | cons p rest ih =>
    obtain ⟨k, w⟩ := p
    by_cases hk : k = pr.1
    · simp [mhas, mfind, hk]
    · rcases List.mem_cons.mp h with rfl | h
      · simp at hk
      · simpa [mhas, mfind, hk] using ih h

theorem mem_mdelete_iff (m : TopicMap) (t : String) (pr : String × Message) :
    pr ∈ mdelete m t ↔ pr ∈ m ∧ pr.1 ≠ t := by
  induction m with
  | nil => simp [mdelete]
  | cons p rest ih =>
    obtain ⟨k, w⟩ := p
    by_cases hk : k = t
    · subst hk
      rw [mdelete, if_pos rfl]
      constructor
      · intro h
        exact ⟨List.mem_cons_of_mem _ (ih.mp h).1, (ih.mp h).2⟩
      · rintro ⟨h1, h2⟩
        rcases List.mem_cons.mp h1 with rfl | h1
        · simp at h2
        · exact ih.mpr ⟨h1, h2⟩
    · rw [mdelete, if_neg hk]
      constructor
      · intro h
        rcases List.mem_cons.mp h with rfl | h
        · exact ⟨List.mem_cons_self _ _, hk⟩
        · exact ⟨List.mem_cons_of_mem _ (ih.mp h).1, (ih.mp h).2⟩
      · rintro ⟨h1, h2⟩
        rcases List.mem_cons.mp h1 with rfl | h1
        · exact List.mem_cons_self _ _
        · exact List.mem_cons_of_mem _ (ih.mpr ⟨h1, h2⟩)

theorem processLoop_nil (pub : PubFn) (reg : Bool) (fuel : Nat) (s : MessageQueue)
    (h : s.queue = []) : MessageQueue.processLoop pub reg fuel s = (s, []) := by
  cases fuel <;> simp [MessageQueue.processLoop, h]

/-- One drain step (`next`) on the state of a queue, written out for both
shapes of `_getNextMessage`'s answer. -/
theorem next_eq_of_gnm_none (pub : PubFn) (s : MessageQueue) (q' : List Message)
    (hg : MessageQueue.getNextMessage s.queue s.messages = (none, q')) :
    MessageQueue.next pub s = ({ s with queue := q' }, none) := by
  simp [MessageQueue.next, hg]

theorem next_eq_of_gnm_some (pub : PubFn) (s : MessageQueue) (m : Message)
    (q' : List Message)
    (hg : MessageQueue.getNextMessage s.queue s.messages = (some m, q')) :
    MessageQueue.next pub s =
      ({ s with queue := q', messages := mdelete s.messages m.mqttTopic },
       some (m, MessageQueue.send pub m)) := by
  simp [MessageQueue.next, hg]

/-- Drain-loop accounting: starting from a state whose live topics all
still have an entry in the pending queue (true of every state the
operations produce), a full drain with a registered client makes exactly
one publish attempt per live topic — their number equals the size of the
live map, every published topic was live at its dequeue, and no topic is
published twice. -/
theorem processLoop_count (pub : PubFn) :
    ∀ fuel s, s.queue.length ≤ fuel → s.running = true →
    (s.messages.map Prod.fst).Nodup →
    (∀ pr ∈ s.messages, ∃ m ∈ s.queue, m.mqttTopic = pr.1) →
    (MessageQueue.processLoop pub true fuel s).2.length = s.messages.length ∧
    ((MessageQueue.processLoop pub true fuel s).2.map (fun e => e.1.mqttTopic)).Nodup ∧
    (∀ e ∈ (MessageQueue.processLoop pub true fuel s).2, mhas s.messages e.1.mqttTopic = true) := by
  intro fuel
  induction fuel with
  | zero =>
    intro s hf _ _ hwf
    have hq : s.queue = [] := List.length_eq_zero.mp (Nat.le_zero.mp hf)
    have hm : s.messages = [] := by
      cases hms : s.messages with
      | nil => rfl
      | cons pr rest =>
        exfalso
        obtain ⟨m, hmem, _⟩ := hwf pr (by simp [hms])
        rw [hq] at hmem
        simp at hmem
    simp [MessageQueue.processLoop, hm]
  | succ fuel ih =>
    intro s hf hrun hnd hwf
    by_cases hc : s.running = true ∧ true = true ∧ s.queue ≠ []
    · cases hg : MessageQueue.getNextMessage s.queue s.messages with
      | mk o q' =>
        cases o with
        | none =>
          obtain ⟨hq', hdead⟩ := gnm_none s.queue s.messages q' hg
          subst hq'
          have hm : s.messages = [] := by
            cases hms : s.messages with
            | nil => rfl
            | cons pr rest =>
              exfalso
              obtain ⟨m, hmem, hmt⟩ := hwf pr (by simp [hms])
              have h1 := hdead m hmem
              have h2 := mem_imp_mhas s.messages pr (by simp [hms])
              rw [hmt] at h1
              rw [h1] at h2
              exact Bool.false_ne_true h2
          rw [MessageQueue.processLoop, if_pos hc]
          simp only [next_eq_of_gnm_none pub s [] hg]
          rw [processLoop_nil pub true fuel _ rfl]
          simp [hm]
        | some m =>
          obtain ⟨hlive, pre, hdecomp, hpredead⟩ := gnm_some s.queue s.messages m q' hg
          obtain ⟨v, hv⟩ := Option.isSome_iff_exists.mp hlive
          set t0 := m.mqttTopic with ht0
          set s1 : MessageQueue :=
            { s with queue := q', messages := mdelete s.messages t0 } with hs1
          have hq'len : q'.length ≤ fuel := by
            have : s.queue.length = pre.length + (q'.length + 1) := by
              rw [hdecomp]; simp
            omega
          have hwf1 : ∀ pr ∈ s1.messages, ∃ x ∈ s1.queue, x.mqttTopic = pr.1 := by
            intro pr hpr
            have hprm : pr ∈ s.messages ∧ pr.1 ≠ t0 :=
              (mem_mdelete_iff s.messages t0 pr).mp hpr
            obtain ⟨x, hx, hxt⟩ := hwf pr hprm.1
            have hxlive : mhas s.messages x.mqttTopic = true := by
              rw [hxt]; exact mem_imp_mhas s.messages pr hprm.1
            rw [hdecomp] at hx
            rcases List.mem_append.mp hx with hx | hx
            · exfalso
              rw [hpredead x hx] at hxlive
              exact Bool.false_ne_true hxlive
            · rcases List.mem_cons.mp hx with rfl | hx
              · exact absurd (by rw [ht0, ← hxt] : pr.1 = t0) hprm.2
              · exact ⟨x, hx, hxt⟩
          have ih1 := ih s1 hq'len hrun (nodup_keys_mdelete s.messages t0 hnd) hwf1
          rw [MessageQueue.processLoop, if_pos hc]
          simp only [next_eq_of_gnm_some pub s m q' hg]
          rw [← hs1]
          refine ⟨?_, ?_, ?_⟩
          · simp only [Option.toList_some, List.singleton_append, List.length_cons]
            rw [ih1.1]
            show (mdelete s.messages t0).length + 1 = s.messages.length
            exact mdelete_length_succ s.messages t0 v hnd hv
          · simp only [Option.toList_some, List.singleton_append, List.map_cons,
              List.nodup_cons]
            refine ⟨?_, ih1.2.1⟩
            intro hmem
            obtain ⟨e, he, het⟩ := List.mem_map.mp hmem
            have := ih1.2.2 e he
            rw [het, mhas, mfind_mdelete_self] at this
            simp at this
          · intro e he
            simp only [Option.toList_some, List.singleton_append] at he
            rcases List.mem_cons.mp he with rfl | he
            · exact hlive
            · exact mhas_mdelete_imp s.messages e.1.mqttTopic t0 (ih1.2.2 e he)
    · have hq : s.queue = [] := by
        by_contra hne
        exact hc ⟨hrun, rfl, hne⟩
      have hm : s.messages = [] := by
        cases hms : s.messages with
        | nil => rfl
        | cons pr rest =>
          exfalso
          obtain ⟨m, hmem, _⟩ := hwf pr (by simp [hms])
          rw [hq] at hmem
          simp at hmem
      rw [MessageQueue.processLoop, if_neg hc]
      simp [hm]

/-- A topic with no live entry when a drain starts is never published by
that drain (the stale-skip rule: dequeued entries of a dead topic are
discarded, and draining only ever deletes live entries). -/
theorem processLoop_dead (pub : PubFn) (reg : Bool) :
    ∀ fuel s t, mfind s.messages t = none →
    (MessageQueue.processLoop pub reg fuel s).2.filter
      (fun e => e.1.mqttTopic == t) = [] := by
  intro fuel
  induction fuel with
  | zero => intro s t _; simp [MessageQueue.processLoop]
  | succ fuel ih =>
    intro s t hdead
    by_cases hc : s.running = true ∧ reg = true ∧ s.queue ≠ []
    · rw [MessageQueue.processLoop, if_pos hc]
      cases hg : MessageQueue.getNextMessage s.queue s.messages with
      | mk o q' =>
        cases o with
        | none =>
          simp only [next_eq_of_gnm_none pub s q' hg]
          simpa using ih { s with queue := q' } t hdead
        | some m =>
          have hlive := (gnm_some s.queue s.messages m q' hg).1
          have hne : m.mqttTopic ≠ t := by
            intro he
            rw [mhas, he, hdead] at hlive
            simp at hlive
          simp only [next_eq_of_gnm_some pub s m q' hg]
          have hdead1 : mfind (mdelete s.messages m.mqttTopic) t = none := by
            rw [mfind_mdelete_ne s.messages t m.mqttTopic (Ne.symm hne)]
            exact hdead
          simp only [Option.toList_some, List.singleton_append, List.filter_cons]
          rw [if_neg (by simpa using hne)]
          simpa using ih _ t hdead1
    · rw [MessageQueue.processLoop, if_neg hc]
      simp

/-- The drain loop's control flow and state evolution are independent of
publish outcomes: a failed attempt neither aborts the loop nor requeues
the message, so the sequence of attempted messages and the final state
are those of an all-successful run. -/
theorem processLoop_pub_irrel (pub pub' : PubFn) (reg : Bool) :
    ∀ fuel s,
    (MessageQueue.processLoop pub reg fuel s).1 =
      (MessageQueue.processLoop pub' reg fuel s).1 ∧
    (MessageQueue.processLoop pub reg fuel s).2.map Prod.fst =
      (MessageQueue.processLoop pub' reg fuel s).2.map Prod.fst := by
  intro fuel
  induction fuel with
  | zero => intro s; simp [MessageQueue.processLoop]
  | succ fuel ih =>
    intro s
    by_cases hc : s.running = true ∧ reg = true ∧ s.queue ≠ []
    · rw [MessageQueue.processLoop, MessageQueue.processLoop, if_pos hc, if_pos hc]
      cases hg : MessageQueue.getNextMessage s.queue s.messages with
      | mk o q' =>
        cases o with
        | none =>
          simp only [next_eq_of_gnm_none pub s q' hg, next_eq_of_gnm_none pub' s q' hg]
          simpa using ih { s with queue := q' }
        | some m =>
          simp only [next_eq_of_gnm_some pub s m q' hg, next_eq_of_gnm_some pub' s m q' hg]
          have := ih { s with queue := q', messages := mdelete s.messages m.mqttTopic }
          simp only [Option.toList_some, List.singleton_append, List.map_cons]
          exact ⟨this.1, by rw [this.2]⟩
    · rw [MessageQueue.processLoop, MessageQueue.processLoop, if_neg hc, if_neg hc]
      simp

/-- The drain loop never duplicates a key in the live map (it only ever
deletes bindings). -/
theorem processLoop_keys_nodup (pub : PubFn) (reg : Bool) :
    ∀ fuel s, (s.messages.map Prod.fst).Nodup →
    ((MessageQueue.processLoop pub reg fuel s).1.messages.map Prod.fst).Nodup := by
  intro fuel
  induction fuel with
  | zero => intro s h; simpa [MessageQueue.processLoop] using h
  | succ fuel ih =>
    intro s h
    by_cases hc : s.running = true ∧ reg = true ∧ s.queue ≠ []
    · rw [MessageQueue.processLoop, if_pos hc]
      cases hg : MessageQueue.getNextMessage s.queue s.messages with
      | mk o q' =>
        cases o with
        | none =>
          simp only [next_eq_of_gnm_none pub s q' hg]
          exact ih { s with queue := q' } h
        | some m =>
          simp only [next_eq_of_gnm_some pub s m q' hg]
          exact ih _ (nodup_keys_mdelete s.messages m.mqttTopic h)
    · rw [MessageQueue.processLoop, if_neg hc]
      simpa using h

/-- Behaviour of `_getNextMessage` on a queue whose last entry is live: either the
whole prefix is dead and the last entry itself is returned with an empty
remainder, or some live prefix entry is returned and the last entry stays
at the back of the remainder. -/
theorem gnm_append_last (msgs : TopicMap) (mStar : Message)
    (hlive : mhas msgs mStar.mqttTopic = true) :
    ∀ q : List Message,
    (MessageQueue.getNextMessage (q ++ [mStar]) msgs = (some mStar, []) ∧
       ∀ x ∈ q, mhas msgs x.mqttTopic = false) ∨
    (∃ m q2, MessageQueue.getNextMessage (q ++ [mStar]) msgs = (some m, q2 ++ [mStar]) ∧
       m ∈ q ∧ mhas msgs m.mqttTopic = true ∧ (∀ x ∈ q2, x ∈ q) ∧ q2.length < q.length) := by
  intro q
  induction q with
  | nil =>
    left
    constructor
    · simp [MessageQueue.getNextMessage, hlive]
    · simp
  | cons c rest ih =>
    by_cases hc : mhas msgs c.mqttTopic = true
    · right
      refine ⟨c, rest, ?_, List.mem_cons_self _ _, hc, fun x hx => List.mem_cons_of_mem _ hx, by simp⟩
      simp [MessageQueue.getNextMessage, hc]
    · have hstep : MessageQueue.getNextMessage ((c :: rest) ++ [mStar]) msgs
          = MessageQueue.getNextMessage (rest ++ [mStar]) msgs := by
        simp [MessageQueue.getNextMessage, hc]
      rcases ih with ⟨h1, h2⟩ | ⟨m, q2, h1, h2, h3, h4, h5⟩
      · left
        refine ⟨by rw [hstep]; exact h1, ?_⟩
        intro x hx
        rcases List.mem_cons.mp hx with rfl | hx
        · simpa using hc
        · exact h2 x hx
      · right
        exact ⟨m, q2, by rw [hstep]; exact h1, List.mem_cons_of_mem _ h2, h3,
          fun x hx => List.mem_cons_of_mem _ (h4 x hx), by simp; omega⟩

/-- Draining a queue whose last entry is the only one with its (live)
topic publishes exactly that entry for that topic, once, with the values
it carries at drain start. -/
theorem processLoop_last (pub : PubFn) :
    ∀ fuel q s mStar, s.queue = q ++ [mStar] → q.length + 1 ≤ fuel →
    s.running = true →
    mfind s.messages mStar.mqttTopic = some mStar →
    (∀ x ∈ q, x.mqttTopic ≠ mStar.mqttTopic) →
    (MessageQueue.processLoop pub true fuel s).2.filter
      (fun e => e.1.mqttTopic == mStar.mqttTopic)
      = [(mStar, MessageQueue.send pub mStar)] := by
  intro fuel
  induction fuel with
  | zero => intro q s mStar _ hf; omega
  | succ fuel ih =>
    intro q s mStar hq hf hrun hfind hqt
    have hlive : mhas s.messages mStar.mqttTopic = true := by
      simp [mhas, hfind]
    have hc : s.running = true ∧ true = true ∧ s.queue ≠ [] := by
      refine ⟨hrun, rfl, ?_⟩
      rw [hq]
      simp
    rw [MessageQueue.processLoop, if_pos hc]
    rcases gnm_append_last s.messages mStar hlive q with ⟨h1, _⟩ | ⟨m, q2, h1, h2, _, h4, h5⟩
    · rw [← hq] at h1
      simp only [next_eq_of_gnm_some pub s mStar [] h1]
      rw [processLoop_nil pub true fuel _ rfl]
      simp
    · rw [← hq] at h1
      simp only [next_eq_of_gnm_some pub s m (q2 ++ [mStar]) h1]
      have hmt : m.mqttTopic ≠ mStar.mqttTopic := hqt m h2
      have hrec := ih q2
        { s with queue := q2 ++ [mStar], messages := mdelete s.messages m.mqttTopic }
        mStar rfl (by omega) hrun
        (by rw [mfind_mdelete_ne s.messages mStar.mqttTopic m.mqttTopic (Ne.symm hmt)]
            exact hfind)
        (fun x hx => hqt x (h4 x hx))
      simp only [Option.toList_some, List.singleton_append, List.filter_cons]
      rw [if_neg (by simpa using hmt)]
      exact hrec

/-- A single enqueue call's data: the payload and the options object. -/
abbrev EnqCall := String × Option MsgOpt

/-- The `Message` constructed by the first enqueue of a topic:
`new Message(topic, payload, opt.qos, opt.retain)` with identity `i`. -/
def mkMsg (i : Nat) (topic : String) (pr : EnqCall) : Message :=
  { mid := i, mqttTopic := topic, mqttMessage := pr.1
    qos := (pr.2.getD {}).qos, retain := (pr.2.getD {}).retain }

/-- The in-place mutation a repeat enqueue performs on the live message:
`message.mqttMessage = payload; message.qos = opt.qos;
message.retain = opt.retain`. -/
def updOne (m : Message) (pr : EnqCall) : Message :=
  { m with mqttMessage := pr.1, qos := (pr.2.getD {}).qos, retain := (pr.2.getD {}).retain }

theorem updOne_mkMsg (i : Nat) (topic : String) (p pr : EnqCall) :
    updOne (mkMsg i topic p) pr = mkMsg i topic pr := rfl

/-- A sequence of `add(topic, payload, opt, false)` calls for one topic,
performed before any drain runs. -/
def MessageQueue.enqueueAll (registered : Bool) (topic : String)
    (pairs : List EnqCall) (s : MessageQueue) : MessageQueue :=
  pairs.foldl (fun st pr => MessageQueue.addMessage registered topic pr.1 pr.2 st) s

theorem addCore_not_found (topic payload : String) (opt : Option MsgOpt)
    (s : MessageQueue) (h : mfind s.messages topic = none) :
    MessageQueue.addCore topic payload opt s =
      { s with messages := mset s.messages topic (mkMsg s.nextId topic (payload, opt))
               queue := s.queue ++ [mkMsg s.nextId topic (payload, opt)]
               nextId := s.nextId + 1 } := by
  simp [MessageQueue.addCore, h, mkMsg]

theorem addCore_found (topic payload : String) (opt : Option MsgOpt)
    (s : MessageQueue) (m : Message) (h : mfind s.messages topic = some m) :
    MessageQueue.addCore topic payload opt s =
      { s with messages := mset s.messages topic (updOne m (payload, opt))
               queue := s.queue.map
                 (fun x => if x.mid = m.mid then updOne m (payload, opt) else x) } := by
  simp [MessageQueue.addCore, h, updOne]

/-- Repeat enqueues while a topic is live only mutate the one live
message: the queue keeps its shape (the live entry in its original
position), the map keeps its single binding, and the final field values
are those of the last call. -/
theorem enqueueFold_mut (topic : String) (ht : topic ≠ "") :
    ∀ ps (u : MessageQueue) (Q : List Message) (m : Message),
    u.queue = Q ++ [m] → mfind u.messages topic = some m →
    m.mqttTopic = topic → (∀ x ∈ Q, x.mid ≠ m.mid) →
    MessageQueue.enqueueAll true topic ps u =
      { u with queue := Q ++ [ps.foldl updOne m]
               messages := mset u.messages topic (ps.foldl updOne m) } := by
  intro ps
  induction ps with
  | nil =>
    intro u Q m hq hfind _ _
    simp only [MessageQueue.enqueueAll, List.foldl_nil]
    rw [mset_of_mfind_eq u.messages topic m hfind, ← hq]
  | cons pr ps ih =>
    intro u Q m hq hfind hmt hfresh
    have hstep : MessageQueue.enqueueAll true topic (pr :: ps) u =
        MessageQueue.enqueueAll true topic ps
          (MessageQueue.addMessage true topic pr.1 pr.2 u) := rfl
    rw [hstep, MessageQueue.addMessage, if_pos ⟨rfl, ht⟩, addCore_found topic pr.1 pr.2 u m hfind]
    have hQmap : Q.map (fun x => if x.mid = m.mid then updOne m (pr.1, pr.2) else x) = Q := by
      rw [show Q = Q.map id by simp]
      rw [List.map_map]
      apply List.map_congr_left
      intro x hx
      simp [hfresh x hx]
    have hq' : (Q ++ [m]).map (fun x => if x.mid = m.mid then updOne m (pr.1, pr.2) else x)
        = Q ++ [updOne m (pr.1, pr.2)] := by
      rw [List.map_append, hQmap]
      simp
    have hrec := ih
      { u with messages := mset u.messages topic (updOne m (pr.1, pr.2))
               queue := u.queue.map (fun x => if x.mid = m.mid then updOne m (pr.1, pr.2) else x) }
      Q (updOne m (pr.1, pr.2))
      (by simp only [hq]; exact hq')
      (by simp only; exact mfind_mset_self u.messages topic _)
      (by simp [updOne, hmt])
      (by intro x hx; simp [updOne]; exact hfresh x hx)
    rw [hrec]
    simp only [mset_mset_self]
    rfl

/-- The full effect of a burst of enqueues of one fresh topic with no
drain in between: one message is appended at the position of the first
call, the map gains its single binding, and later calls only mutate that
message in place. -/
theorem enqueueAll_burst (topic : String) (p : EnqCall) (ps : List EnqCall)
    (s : MessageQueue) (ht : topic ≠ "")
    (habsent : mfind s.messages topic = none)
    (hfresh : ∀ x ∈ s.queue, x.mid ≠ s.nextId) :
    MessageQueue.enqueueAll true topic (p :: ps) s =
      { s with queue := s.queue ++ [ps.foldl updOne (mkMsg s.nextId topic p)]
               messages := mset s.messages topic (ps.foldl updOne (mkMsg s.nextId topic p))
               nextId := s.nextId + 1 } := by
  have hstep : MessageQueue.enqueueAll true topic (p :: ps) s =
      MessageQueue.enqueueAll true topic ps
        (MessageQueue.addMessage true topic p.1 p.2 s) := rfl
  rw [hstep, MessageQueue.addMessage, if_pos ⟨rfl, ht⟩, addCore_not_found topic p.1 p.2 s habsent]
  have hrec := enqueueFold_mut topic ht ps
    { s with messages := mset s.messages topic (mkMsg s.nextId topic (p.1, p.2))
             queue := s.queue ++ [mkMsg s.nextId topic (p.1, p.2)]
             nextId := s.nextId + 1 }
    s.queue (mkMsg s.nextId topic (p.1, p.2))
    (by simp only)
    (by simp only; exact mfind_mset_self s.messages topic _)
    rfl
    (by intro x hx; simpa [mkMsg] using hfresh x hx)
  rw [hrec]
  simp only [mset_mset_self]

/-- Folding the last-value-wins mutation over a burst produces the
message holding the last call's payload and options. -/
theorem foldl_updOne_getLast (i : Nat) (topic : String) :
    ∀ (ps : List EnqCall) (p lp : EnqCall), (p :: ps).getLast? = some lp →
    ps.foldl updOne (mkMsg i topic p) = mkMsg i topic lp := by
  intro ps
  induction ps with
  | nil =>
    intro p lp h
    simp [List.getLast?] at h
    simp [h]
  | cons pr ps ih =>
    intro p lp h
    rw [List.getLast?_cons_cons] at h
    rw [List.foldl_cons, updOne_mkMsg]
    exact ih pr lp h

theorem process_split (pub : PubFn) (reg : Bool) (s : MessageQueue)
    (h : s.processing = false) :
    MessageQueue.process pub reg s =
      ({ (MessageQueue.processLoop pub reg s.queue.length
            { s with processing := true }).1 with processing := false },
       (MessageQueue.processLoop pub reg s.queue.length
            { s with processing := true }).2) := by
  rw [MessageQueue.process, if_neg (by simp [h])]

/-!
## The claims
-/

/-- C1: for every burst of enqueue calls with one (fresh, non-empty)
topic performed before any drain runs — on a running queue whose pending
order holds no entry for that topic — the burst appends exactly one
message at the position of the first call (later calls mutate it in
place), and draining then makes exactly one publish attempt for that
topic, carrying the payload/qos/retain of the last call. -/
theorem c1_enqueue_coalesce (s : MessageQueue) (topic : String)
    (p : EnqCall) (ps : List EnqCall) (lp : EnqCall) (pub : PubFn)
    (ht : topic ≠ "")
    (hrun : s.running = true)
    (hproc : s.processing = false)
    (habsent : mfind s.messages topic = none)
    (hqt : ∀ x ∈ s.queue, x.mqttTopic ≠ topic)
    (hfresh : ∀ x ∈ s.queue, x.mid ≠ s.nextId)
    (hlast : (p :: ps).getLast? = some lp) :
    MessageQueue.enqueueAll true topic (p :: ps) s =
      { s with queue := s.queue ++ [mkMsg s.nextId topic lp]
               messages := mset s.messages topic (mkMsg s.nextId topic lp)
               nextId := s.nextId + 1 } ∧
    (MessageQueue.process pub true
        (MessageQueue.enqueueAll true topic (p :: ps) s)).2.filter
        (fun e => e.1.mqttTopic == topic)
      = [(mkMsg s.nextId topic lp, MessageQueue.send pub (mkMsg s.nextId topic lp))] := by
  have hA := enqueueAll_burst topic p ps s ht habsent hfresh
  rw [foldl_updOne_getLast s.nextId topic ps p lp hlast] at hA
  refine ⟨hA, ?_⟩
  rw [hA]
  set mStar := mkMsg s.nextId topic lp with hmStar
  set A : MessageQueue :=
    { s with queue := s.queue ++ [mStar]
             messages := mset s.messages topic mStar
             nextId := s.nextId + 1 } with hAdef
  have hAproc : A.processing = false := hproc
  rw [process_split pub true A hAproc]
  exact processLoop_last pub A.queue.length s.queue { A with processing := true } mStar
    rfl (by simp [hAdef]) hrun (mfind_mset_self s.messages topic mStar) hqt

theorem c1_enqueue_coalesce_witness :
    mfind MessageQueue.init.messages "a" = none ∧
    (MessageQueue.enqueueAll true "a"
        (("1", some { qos := some 2, retain := some true }) :: [("2", none)])
        MessageQueue.init =
      { MessageQueue.init with
          queue := MessageQueue.init.queue ++ [mkMsg MessageQueue.init.nextId "a" ("2", none)]
          messages := mset MessageQueue.init.messages "a"
            (mkMsg MessageQueue.init.nextId "a" ("2", none))
          nextId := MessageQueue.init.nextId + 1 } ∧
    (MessageQueue.process pubTrue true
        (MessageQueue.enqueueAll true "a"
          (("1", some { qos := some 2, retain := some true }) :: [("2", none)])
          MessageQueue.init)).2.filter (fun e => e.1.mqttTopic == "a")
      = [(mkMsg MessageQueue.init.nextId "a" ("2", none),
          MessageQueue.send pubTrue (mkMsg MessageQueue.init.nextId "a" ("2", none)))]) :=
  ⟨by decide,
   c1_enqueue_coalesce MessageQueue.init "a"
     ("1", some { qos := some 2, retain := some true }) [("2", none)] ("2", none) pubTrue
     (by decide) rfl rfl (by decide) (by decide) (by decide) (by decide)⟩

/-- C2, refuted: in the scenario enqueue `("a/b","1",{retain:true})` then
enqueue `("a/b","2")` with no options before any drain, draining makes
exactly one publish — but its retain flag is not `true`: the optionless
second call overwrote `message.retain` with `opt.retain`, i.e.
`undefined` (`none`). -/
theorem c2_counterexample :
    (MessageQueue.process pubTrue true
        (MessageQueue.addMessage true "a/b" "2" none
          (MessageQueue.addMessage true "a/b" "1" (some { retain := some true })
            MessageQueue.init))).2
      = [({ mid := 0, mqttTopic := "a/b", mqttMessage := "2"
            qos := none, retain := none }, true)] ∧
    ∀ e ∈ (MessageQueue.process pubTrue true
        (MessageQueue.addMessage true "a/b" "2" none
          (MessageQueue.addMessage true "a/b" "1" (some { retain := some true })
            MessageQueue.init))).2, e.1.retain ≠ some true := by
  decide

/-- C2 as the code has it: in that scenario draining publishes exactly one
message with topic `a/b` and payload `2`, whose qos and retain are the
(absent) options of the last enqueue call — `undefined`, not the first
call's `retain:true`. -/
theorem c2_amended_scenario :
    (MessageQueue.process pubTrue true
        (MessageQueue.addMessage true "a/b" "2" none
          (MessageQueue.addMessage true "a/b" "1" (some { retain := some true })
            MessageQueue.init))).2
      = [({ mid := 0, mqttTopic := "a/b", mqttMessage := "2"
            qos := none, retain := none }, true)] := by
  decide

theorem nodup_keys_addCore (topic payload : String) (opt : Option MsgOpt)
    (s : MessageQueue) (h : (s.messages.map Prod.fst).Nodup) :
    ((MessageQueue.addCore topic payload opt s).messages.map Prod.fst).Nodup := by
  cases hf : mfind s.messages topic with
  | none =>
    rw [addCore_not_found topic payload opt s hf]
    exact nodup_keys_mset s.messages topic _ h
  | some m =>
    rw [addCore_found topic payload opt s m hf]
    exact nodup_keys_mset s.messages topic _ h

theorem nodup_keys_next (pub : PubFn) (s : MessageQueue)
    (h : (s.messages.map Prod.fst).Nodup) :
    ((MessageQueue.next pub s).1.messages.map Prod.fst).Nodup := by
  cases hg : MessageQueue.getNextMessage s.queue s.messages with
  | mk o q' =>
    cases o with
    | none => rw [next_eq_of_gnm_none pub s q' hg]; exact h
    | some m =>
      rw [next_eq_of_gnm_some pub s m q' hg]
      exact nodup_keys_mdelete s.messages m.mqttTopic h

theorem nodup_keys_process (pub : PubFn) (reg : Bool) (s : MessageQueue)
    (h : (s.messages.map Prod.fst).Nodup) :
    ((MessageQueue.process pub reg s).1.messages.map Prod.fst).Nodup := by
  by_cases hp : s.processing = true
  · rw [MessageQueue.process, if_pos (by simp [hp])]
    exact h
  · rw [process_split pub reg s (by simpa using hp)]
    exact processLoop_keys_nodup pub reg s.queue.length { s with processing := true } h

theorem next_some_live (pub : PubFn) (s : MessageQueue) (m : Message) (b : Bool)
    (h : (MessageQueue.next pub s).2 = some (m, b)) :
    mhas s.messages m.mqttTopic = true := by
  cases hg : MessageQueue.getNextMessage s.queue s.messages with
  | mk o q' =>
    cases o with
    | none =>
      rw [next_eq_of_gnm_none pub s q' hg] at h
      simp at h
    | some m' =>
      rw [next_eq_of_gnm_some pub s m' q' hg] at h
      simp only [Option.some.injEq, Prod.mk.injEq] at h
      rw [← h.1]
      exact (gnm_some s.queue s.messages m' q' hg).1

/-- The claim's middle invariant, decidably: every topic of the live map
has at most one entry in the pending-order array. -/
def liveEntryBound (s : MessageQueue) : Bool :=
  s.messages.all
    (fun pr => decide ((s.queue.filter (fun x => x.mqttTopic == pr.1)).length ≤ 1))

/-- C3, refuted: enqueue does not preserve "the pending order holds at
most one entry whose topic is in the live set".  Starting from the
reachable state enqueue `t` then cancel `t` (which leaves the stale
pending entry behind), a re-enqueue of `t` creates a second entry for the
now-live topic `t`: both the stale and the fresh entry have their topic
in the live set. -/
theorem c3_counterexample :
    liveEntryBound
      (MessageQueue.remove "t"
        (MessageQueue.addMessage true "t" "1" none MessageQueue.init)) = true ∧
    liveEntryBound
      (MessageQueue.addMessage true "t" "2" none
        (MessageQueue.remove "t"
          (MessageQueue.addMessage true "t" "1" none MessageQueue.init))) = false := by
  decide

/-- C3 as the code has it: every operation keeps the live map free of
duplicate topics (at most one live `Message` per topic), and a pending
entry whose topic is absent from the live set at dequeue time is never
passed to publish — every message `next` emits had its topic in the live
set at its dequeue.  The claim's further invariant — at most one pending
entry per live topic — fails after cancel-then-re-enqueue
(`c3_counterexample`). -/
theorem c3_amended (s : MessageQueue) (pub : PubFn) (reg : Bool)
    (topic payload : String) (opt : Option MsgOpt) (m : Message) (b : Bool)
    (hnd : (s.messages.map Prod.fst).Nodup) :
    ((MessageQueue.addMessage reg topic payload opt s).messages.map Prod.fst).Nodup ∧
    ((MessageQueue.remove topic s).messages.map Prod.fst).Nodup ∧
    ((MessageQueue.clear s).messages.map Prod.fst).Nodup ∧
    ((MessageQueue.stop s).messages.map Prod.fst).Nodup ∧
    ((MessageQueue.next pub s).1.messages.map Prod.fst).Nodup ∧
    ((MessageQueue.process pub reg s).1.messages.map Prod.fst).Nodup ∧
    ((MessageQueue.start pub reg s).1.messages.map Prod.fst).Nodup ∧
    ((MessageQueue.next pub s).2 = some (m, b) → mhas s.messages m.mqttTopic = true) := by
  refine ⟨?_, ?_, ?_, ?_, ?_, ?_, ?_, ?_⟩
  · rw [MessageQueue.addMessage]
    by_cases hg : (reg = true) ∧ topic ≠ ""
    · rw [if_pos hg]; exact nodup_keys_addCore topic payload opt s hnd
    · rw [if_neg hg]; exact hnd
  · exact nodup_keys_mdelete s.messages topic hnd
  · simp [MessageQueue.clear]
  · exact hnd
  · exact nodup_keys_next pub s hnd
  · exact nodup_keys_process pub reg s hnd
  · exact nodup_keys_process pub reg { s with running := true } hnd
  · exact next_some_live pub s m b

theorem c3_amended_witness :
    ((MessageQueue.init.messages.map Prod.fst).Nodup) ∧
    ((MessageQueue.addMessage true "t" "1" none MessageQueue.init).messages.map
        Prod.fst).Nodup :=
  ⟨by decide,
   (c3_amended MessageQueue.init pubTrue true "t" "1" none
      { mid := 0, mqttTopic := "t", mqttMessage := "1", qos := none, retain := none } true
      (by decide)).1⟩

/-- C4: `process` is reentrancy-safe — a call while `_processing` is set
returns immediately with no publish and no state change; when it does
run, the `_processing` flag is false again on return whatever the publish
outcomes; and a drain started on a running queue with a registered client
(from a state whose live topics all still have pending entries, with no
duplicate live bindings — true of every state the operations produce)
makes exactly as many publish attempts as there are distinct live topics,
none twice. -/
theorem c4_drain_reentrancy (pub : PubFn) (reg : Bool) (s : MessageQueue) :
    (s.processing = true → MessageQueue.process pub reg s = (s, [])) ∧
    (s.processing = false → (MessageQueue.process pub reg s).1.processing = false) ∧
    (s.processing = false → s.running = true →
      (s.messages.map Prod.fst).Nodup →
      (∀ pr ∈ s.messages, ∃ m ∈ s.queue, m.mqttTopic = pr.1) →
      (MessageQueue.process pub true s).2.length = s.messages.length ∧
      ((MessageQueue.process pub true s).2.map (fun e => e.1.mqttTopic)).Nodup) := by
  refine ⟨?_, ?_, ?_⟩
  · intro h
    rw [MessageQueue.process, if_pos (by simp [h])]
  · intro h
    rw [process_split pub reg s h]
  · intro hp hrun hnd hwf
    rw [process_split pub true s hp]
    have := processLoop_count pub s.queue.length { s with processing := true }
      (le_refl _) hrun hnd hwf
    exact ⟨this.1, this.2.1⟩

theorem c4_drain_reentrancy_witness :
    ((MessageQueue.addMessage true "t" "v" none MessageQueue.init).processing = false) ∧
    ((MessageQueue.process pubTrue true
        (MessageQueue.addMessage true "t" "v" none MessageQueue.init)).2.length
      = (MessageQueue.addMessage true "t" "v" none MessageQueue.init).messages.length ∧
     ((MessageQueue.process pubTrue true
        (MessageQueue.addMessage true "t" "v" none MessageQueue.init)).2.map
          (fun e => e.1.mqttTopic)).Nodup) :=
  ⟨by decide,
   (c4_drain_reentrancy pubTrue true
      (MessageQueue.addMessage true "t" "v" none MessageQueue.init)).2.2
     (by decide) (by decide) (by decide) (by decide)⟩

/-- C5: `remove` (cancel) deletes the topic from the live map only — the
pending order and both flags are untouched and the topic is no longer
live; a drain run after the cancel makes no publish attempt for that
topic; and cancelling a topic that is not live (already drained, or never
pending) leaves the state exactly as it was. -/
theorem c5_cancel (s : MessageQueue) (topic : String) (pub : PubFn) (reg : Bool) :
    ((MessageQueue.remove topic s).queue = s.queue ∧
     (MessageQueue.remove topic s).running = s.running ∧
     (MessageQueue.remove topic s).processing = s.processing) ∧
    mfind (MessageQueue.remove topic s).messages topic = none ∧
    (MessageQueue.process pub reg (MessageQueue.remove topic s)).2.filter
      (fun e => e.1.mqttTopic == topic) = [] ∧
    (mfind s.messages topic = none → MessageQueue.remove topic s = s) := by
  refine ⟨⟨rfl, rfl, rfl⟩, mfind_mdelete_self s.messages topic, ?_, ?_⟩
  · by_cases hp : s.processing = true
    · rw [MessageQueue.process, if_pos (by simpa [MessageQueue.remove] using hp)]
      rfl
    · rw [process_split pub reg _ (by simpa [MessageQueue.remove] using hp)]
      exact processLoop_dead pub reg _
        { MessageQueue.remove topic s with processing := true } topic
        (mfind_mdelete_self s.messages topic)
  · intro h
    rw [MessageQueue.remove, mdelete_of_mfind_none s.messages topic h]

theorem c5_cancel_witness :
    ((MessageQueue.remove "x"
        (MessageQueue.addMessage true "x" "v" none MessageQueue.init)).queue
      = (MessageQueue.addMessage true "x" "v" none MessageQueue.init).queue) ∧
    (MessageQueue.process pubTrue true
        (MessageQueue.remove "x"
          (MessageQueue.addMessage true "x" "v" none MessageQueue.init))).2.filter
      (fun e => e.1.mqttTopic == "x") = [] :=
  ⟨(c5_cancel (MessageQueue.addMessage true "x" "v" none MessageQueue.init)
      "x" pubTrue true).1.1,
   (c5_cancel (MessageQueue.addMessage true "x" "v" none MessageQueue.init)
      "x" pubTrue true).2.2.1⟩

/-- The publisher that fails exactly on topic `t1`. -/
def pubFailT1 : PubFn := fun topic _ _ _ => topic != "t1"

/-- C6: a failed publish neither aborts the drain loop nor requeues the
message — the sequence of attempted messages and the final queue state
are exactly those of an all-successful run (so delivery is at-most-once
and every remaining live topic is still drained); in particular, when
publishing fails for `t1` but succeeds for a later-enqueued `t2`, the
drain still attempts both, in order. -/
theorem c6_failure_isolation (pub : PubFn) (reg : Bool) (s : MessageQueue) :
    ((MessageQueue.process pub reg s).1 = (MessageQueue.process pubTrue reg s).1 ∧
     (MessageQueue.process pub reg s).2.map Prod.fst
       = (MessageQueue.process pubTrue reg s).2.map Prod.fst) ∧
    (MessageQueue.process pubFailT1 true
        (MessageQueue.addMessage true "t2" "v2" none
          (MessageQueue.addMessage true "t1" "v1" none MessageQueue.init))).2
      = [({ mid := 0, mqttTopic := "t1", mqttMessage := "v1"
            qos := none, retain := none }, false),
         ({ mid := 1, mqttTopic := "t2", mqttMessage := "v2"
            qos := none, retain := none }, true)] := by
  refine ⟨?_, by decide⟩
  by_cases hp : s.processing = true
  · rw [MessageQueue.process, MessageQueue.process, if_pos (by simp [hp]),
      if_pos (by simp [hp])]
    exact ⟨rfl, rfl⟩
  · rw [process_split pub reg s (by simpa using hp),
      process_split pubTrue reg s (by simpa using hp)]
    have := processLoop_pub_irrel pub pubTrue reg s.queue.length
      { s with processing := true }
    exact ⟨by rw [this.1], this.2⟩

theorem c6_failure_isolation_witness :
    (MessageQueue.process pubFailT1 true
        (MessageQueue.addMessage true "t1" "v1" none MessageQueue.init)).2.map Prod.fst
      = (MessageQueue.process pubTrue true
          (MessageQueue.addMessage true "t1" "v1" none MessageQueue.init)).2.map
            Prod.fst :=
  (c6_failure_isolation pubFailT1 true
    (MessageQueue.addMessage true "t1" "v1" none MessageQueue.init)).1.2

/-- A publish attempt up to object identity: the wire-visible fields of
the message plus the outcome. -/
def evObs (e : Message × Bool) : (String × String × Option Nat × Option Bool) × Bool :=
  (e.1.obs, e.2)

/-- A queue state up to object identity: everything except the identity
counter and the `mid` fields. -/
def stateObs (s : MessageQueue) :
    List (String × String × Option Nat × Option Bool)
      × List (String × (String × String × Option Nat × Option Bool)) × Bool × Bool :=
  (s.queue.map Message.obs, s.messages.map (fun pr => (pr.1, pr.2.obs)),
   s.running, s.processing)

/-- C7, refuted: after `reset` (clear), a subsequent enqueue-plus-drain
does not always behave as on a newly constructed queue.  `clear` does not
restore `running` (a fresh queue has `running = true`), so on a stopped
queue — e.g. right after `destroy()` = `stop(); clear()` — the enqueue
drains nothing, while a fresh queue publishes the message. -/
theorem c7_counterexample :
    ¬ ((MessageQueue.add pubTrue true "t" "v" none true
          (MessageQueue.clear (MessageQueue.stop MessageQueue.init))).2.map evObs
        = (MessageQueue.add pubTrue true "t" "v" none true MessageQueue.init).2.map
            evObs) := by
  decide

/-- C7 as the code has it: `clear` empties both the pending order and the
live map, the handler subscribed to the client's unregistered event is
exactly `clear`, and — provided the queue is running and not mid-drain —
an enqueue-plus-drain after `clear` behaves exactly (up to object
identity) as on a newly constructed queue. -/
theorem c7_reset (s : MessageQueue) (topic payload : String) (opt : Option MsgOpt)
    (pub : PubFn) :
    (MessageQueue.clear s).queue = [] ∧
    (MessageQueue.clear s).messages = [] ∧
    MessageQueue.onUnRegisteredHandler s = MessageQueue.clear s ∧
    (s.running = true → s.processing = false →
      ((MessageQueue.add pub true topic payload opt true (MessageQueue.clear s)).2.map
          evObs
        = (MessageQueue.add pub true topic payload opt true MessageQueue.init).2.map
            evObs ∧
       stateObs (MessageQueue.add pub true topic payload opt true
          (MessageQueue.clear s)).1
        = stateObs (MessageQueue.add pub true topic payload opt true
            MessageQueue.init).1)) := by
  refine ⟨rfl, rfl, rfl, ?_⟩
  intro hrun hproc
  by_cases ht : topic = ""
  · subst ht
    rw [MessageQueue.add, if_neg (by simp), MessageQueue.add, if_neg (by simp)]
    exact ⟨rfl, by simp [stateObs, MessageQueue.clear, MessageQueue.init, hrun, hproc]⟩
  · constructor
    · simp [MessageQueue.add, ht, MessageQueue.addCore, MessageQueue.clear,
        MessageQueue.init, MessageQueue.process, MessageQueue.processLoop,
        MessageQueue.next, MessageQueue.getNextMessage, mhas, mfind, mset, mdelete,
        MessageQueue.send, evObs, Message.obs, hrun, hproc]
    · simp [MessageQueue.add, ht, MessageQueue.addCore, MessageQueue.clear,
        MessageQueue.init, MessageQueue.process, MessageQueue.processLoop,
        MessageQueue.next, MessageQueue.getNextMessage, mhas, mfind, mset, mdelete,
        MessageQueue.send, stateObs, Message.obs, hrun, hproc]

theorem c7_reset_witness :
    ((MessageQueue.clear (MessageQueue.addMessage true "t" "v" none
        MessageQueue.init)).queue = []) ∧
    ((MessageQueue.add pubTrue true "u" "w" none true
        (MessageQueue.clear (MessageQueue.addMessage true "t" "v" none
          MessageQueue.init))).2.map evObs
      = (MessageQueue.add pubTrue true "u" "w" none true MessageQueue.init).2.map
          evObs) :=
  ⟨(c7_reset (MessageQueue.addMessage true "t" "v" none MessageQueue.init)
      "u" "w" none pubTrue).1,
   ((c7_reset (MessageQueue.addMessage true "t" "v" none MessageQueue.init)
      "u" "w" none pubTrue).2.2.2 (by decide) (by decide)).1⟩

/-- C8, refuted in one conjunct: `start()` performs no operation on the
`MessageQueue` at all — in particular it does not resume queue draining
(no `messageQueue.start()`/`process()` call appears in its trace, here on
the default hub). -/
theorem c8_counterexample :
    HubEvent.queueStart ∉ MQTTHub.start { settings := {} } true ∧
    HubEvent.queueStop ∉ MQTTHub.start { settings := {} } true ∧
    HubEvent.queueClear ∉ MQTTHub.start { settings := {} } true := by
  decide

/-- C8 as the code has it: on `start()` with a successful connect, the
birth message — the fixed topic with the single deviceId substitution,
payload "online", qos 1, retain true — is published immediately after the
connect and before every dispatch-component start (commands,
broadcasters, protocol dispatchers); `start()` never touches the
`MessageQueue`, so it also does not explicitly resume draining. -/
theorem c8_lifecycle_start (hub : MQTTHub) :
    ∃ rest,
      MQTTHub.start hub true
        = HubEvent.connect
          :: HubEvent.publishDirect
               (jsReplace BIRTH_TOPIC "\x7bdeviceId\x7d" (hub.settings.deviceId.getD "Homey"))
               BIRTH_MESSAGE 1 true
          :: rest ∧
      HubEvent.startCommands ∈ rest ∧
      HubEvent.startBroadcasters ∈ rest ∧
      (∀ p, HubEvent.startProtocol p ∈ MQTTHub.start hub true →
        HubEvent.startProtocol p ∈ rest) ∧
      HubEvent.queueStart ∉ MQTTHub.start hub true ∧
      HubEvent.queueStop ∉ MQTTHub.start hub true ∧
      HubEvent.queueClear ∉ MQTTHub.start hub true := by
  have hbirth : MQTTHub.sendBirthMessage hub.settings
      = [HubEvent.publishDirect
           (jsReplace BIRTH_TOPIC "\x7bdeviceId\x7d" (hub.settings.deviceId.getD "Homey"))
           BIRTH_MESSAGE 1 true] := by
    rw [MQTTHub.sendBirthMessage, if_pos (by decide)]
  refine ⟨[HubEvent.startCommands, HubEvent.startBroadcasters]
      ++ (if hub.protocol ≠ some (hub.settings.protocol.getD "homie3") then
            MQTTHub.stopCommunicationProtocol hub.protocol
              ++ [HubEvent.startProtocol (hub.settings.protocol.getD "homie3")]
          else []), ?_, ?_, ?_, ?_, ?_, ?_, ?_⟩
  · rw [MQTTHub.start, if_pos rfl, hbirth]
    simp
  · simp
  · simp
  · intro p hp
    rw [MQTTHub.start, if_pos rfl, hbirth] at hp
    simpa using hp
  · rw [MQTTHub.start, if_pos rfl, hbirth]
    simp only [List.mem_append, List.mem_cons, List.mem_singleton]
    simp only [MQTTHub.stopCommunicationProtocol]
    split
    · split <;> simp
    · simp
  · rw [MQTTHub.start, if_pos rfl, hbirth]
    simp only [List.mem_append, List.mem_cons, List.mem_singleton]
    simp only [MQTTHub.stopCommunicationProtocol]
    split
    · split <;> simp
    · simp
  · rw [MQTTHub.start, if_pos rfl, hbirth]
    simp only [List.mem_append, List.mem_cons, List.mem_singleton]
    simp only [MQTTHub.stopCommunicationProtocol]
    split
    · split <;> simp
    · simp

theorem c8_lifecycle_start_witness :
    ∃ rest,
      MQTTHub.start { settings := {}, protocol := some "homie3" } true
        = HubEvent.connect
          :: HubEvent.publishDirect
               (jsReplace BIRTH_TOPIC "\x7bdeviceId\x7d"
                 (({} : HubSettings).deviceId.getD "Homey"))
               BIRTH_MESSAGE 1 true
          :: rest := by
  obtain ⟨rest, h⟩ := c8_lifecycle_start { settings := {}, protocol := some "homie3" }
  exact ⟨rest, h.1⟩

/-- C9, refuted: in `stop()` the Publisher is disconnected *before* the
dispatch components are stopped (the claim states the opposite order),
and `MessageQueue.stop()` is never called. -/
theorem c9_counterexample :
    (MQTTHub.stop { settings := {}, protocol := some "homie3" }).findIdx
        (fun e => e == HubEvent.disconnect)
      < (MQTTHub.stop { settings := {}, protocol := some "homie3" }).findIdx
        (fun e => e == HubEvent.stopCommands) ∧
    HubEvent.queueStop ∉ MQTTHub.stop { settings := {}, protocol := some "homie3" } := by
  decide

/-- C9 as the code has it: `stop()` publishes the last-will message (same
fixed topic, "offline", qos 1, retain true) before disconnecting, then
disconnects the Publisher, and only then stops the dispatch components
(commands, broadcasters, protocol dispatchers); `MessageQueue.stop()` is
never invoked by it. -/
theorem c9_lifecycle_stop (hub : MQTTHub) :
    ∃ rest,
      MQTTHub.stop hub
        = HubEvent.publishDirect
            (jsReplace WILL_TOPIC "\x7bdeviceId\x7d" (hub.settings.deviceId.getD "Homey"))
            WILL_MESSAGE 1 true
          :: HubEvent.disconnect :: rest ∧
      HubEvent.stopCommands ∈ rest ∧
      HubEvent.stopBroadcasters ∈ rest ∧
      HubEvent.queueStop ∉ MQTTHub.stop hub ∧
      HubEvent.queueStart ∉ MQTTHub.stop hub ∧
      HubEvent.queueClear ∉ MQTTHub.stop hub := by
  have hwill : MQTTHub.sendLastWillMessage hub.settings
      = [HubEvent.publishDirect
           (jsReplace WILL_TOPIC "\x7bdeviceId\x7d" (hub.settings.deviceId.getD "Homey"))
           WILL_MESSAGE 1 true] := by
    rw [MQTTHub.sendLastWillMessage, if_pos (by decide)]
  refine ⟨[HubEvent.stopCommands, HubEvent.stopBroadcasters]
      ++ MQTTHub.stopCommunicationProtocol hub.protocol, ?_, ?_, ?_, ?_, ?_, ?_⟩
  · rw [MQTTHub.stop, hwill]
    simp
  · simp
  · simp
  · rw [MQTTHub.stop, hwill]
    simp only [List.mem_append, List.mem_cons, List.mem_singleton]
    simp only [MQTTHub.stopCommunicationProtocol]
    split <;> simp
  · rw [MQTTHub.stop, hwill]
    simp only [List.mem_append, List.mem_cons, List.mem_singleton]
    simp only [MQTTHub.stopCommunicationProtocol]
    split <;> simp
  · rw [MQTTHub.stop, hwill]
    simp only [List.mem_append, List.mem_cons, List.mem_singleton]
    simp only [MQTTHub.stopCommunicationProtocol]
    split <;> simp

theorem c9_lifecycle_stop_witness :
    ∃ rest,
      MQTTHub.stop { settings := {}, protocol := some "homie3" }
        = HubEvent.publishDirect
            (jsReplace WILL_TOPIC "\x7bdeviceId\x7d"
              (({} : HubSettings).deviceId.getD "Homey"))
            WILL_MESSAGE 1 true
          :: HubEvent.disconnect :: rest := by
  obtain ⟨rest, h⟩ := c9_lifecycle_stop { settings := {}, protocol := some "homie3" }
  exact ⟨rest, h.1⟩

/-- C10: the birth and last-will messages bypass the `MessageQueue`
entirely — `_sendBirthMessage`/`_sendLastWillMessage` never mention the
queue, so any queue state passes through unchanged (whatever its pending
order, live set or running flag, registered or not), and each publishes
exactly one freshly built message, qos 1 and retain true, directly
through the client. -/
theorem c10_direct_publish (settings : HubSettings) (q : MessageQueue) :
    (MQTTHub.sendBirthWithQueue settings q).1 = q ∧
    (MQTTHub.sendLastWillWithQueue settings q).1 = q ∧
    (MQTTHub.sendBirthWithQueue settings q).2
      = [HubEvent.publishDirect
           (jsReplace BIRTH_TOPIC "\x7bdeviceId\x7d" (settings.deviceId.getD "Homey"))
           BIRTH_MESSAGE 1 true] ∧
    (MQTTHub.sendLastWillWithQueue settings q).2
      = [HubEvent.publishDirect
           (jsReplace WILL_TOPIC "\x7bdeviceId\x7d" (settings.deviceId.getD "Homey"))
           WILL_MESSAGE 1 true] := by
  refine ⟨rfl, rfl, ?_, ?_⟩
  · show MQTTHub.sendBirthMessage settings = _
    rw [MQTTHub.sendBirthMessage, if_pos (by decide)]
  · show MQTTHub.sendLastWillMessage settings = _
    rw [MQTTHub.sendLastWillMessage, if_pos (by decide)]

theorem c10_direct_publish_witness :
    (MQTTHub.sendBirthWithQueue {} (MessageQueue.stop MessageQueue.init)).1
      = MessageQueue.stop MessageQueue.init ∧
    (MQTTHub.sendBirthWithQueue {} (MessageQueue.stop MessageQueue.init)).2
      = [HubEvent.publishDirect
           (jsReplace BIRTH_TOPIC "\x7bdeviceId\x7d" (({} : HubSettings).deviceId.getD "Homey"))
           BIRTH_MESSAGE 1 true] ∧
    jsReplace BIRTH_TOPIC "\x7bdeviceId\x7d" (({} : HubSettings).deviceId.getD "Homey")
      = "Homey/hub/status" :=
  ⟨(c10_direct_publish {} (MessageQueue.stop MessageQueue.init)).1,
   (c10_direct_publish {} (MessageQueue.stop MessageQueue.init)).2.2.1,
   by decide⟩
